import Mathlib

/-
Verification of the Manufacturing / Supply-Chain chatbot's indexing and
hybrid-retrieval pipeline.

Python strings are modelled as `List Char` (`Str` below).  Each definition
is a shallow embedding of the homonymous function of the repository:

* `combine_results`, `answer_query` ........ hybrid_search.py
* `retrieve_context_from_pinecone` ......... embedding_search.py
* `clean_vector_id`, `get_embeddings`,
  `split_articles_into_documents`,
  `index_documents_to_pinecone` ............ data_ingestion.py
* `create_fts_table_with_link`,
  `remove_duplicates_from_articles`,
  `search_articles_with_link` .............. full_text_search.py

External collaborators (the sentence-transformers encoder, the Pinecone
index, the SQLite engine, the langchain splitter) enter as explicit
oracle parameters; the Python-level control flow around them (loops,
truthiness tests, try/except/finally) is embedded faithfully.
-/

namespace MSC

/-- Python `str` modelled as its character sequence. -/
abbrev Str := List Char

/-- The whitespace characters `str.split()` (no argument) splits on. -/
def isPySpace (c : Char) : Bool :=
  c = ' ' || c = '\n' || c = '\t' || c = '\r' || c = '\x0b' || c = '\x0c'

/-- Number of maximal non-whitespace runs in a character list; the `Bool`
argument records whether the scan is currently inside a run.  This is
`len(text.split())` for Python `str.split()` with no separator. -/
def countTokensAux : Bool → Str → Nat
  | _, [] => 0
  | inWord, c :: cs =>
    if isPySpace c then countTokensAux false cs
    else (if inWord then 0 else 1) + countTokensAux true cs

/-- `calculate_token_count` of hybrid_search.py: `len(text.split())`,
the whitespace-delimited word count used as the approximate token count. -/
def calculate_token_count (text : Str) : Nat := countTokensAux false text

/-- A Python value that `combine_results` may meet while iterating its
`pinecone_chunks` argument: a `str`, a `dict` (which may or may not carry
`metadata.content`), or anything else. -/
inductive PyVal where
  | str (s : Str)
  | dict (content : Option Str)
  | other
deriving DecidableEq

/-- The content `combine_results` extracts from one element of
`pinecone_chunks`: a `str` is taken as is, a `dict` yields
`chunk['metadata']['content']` when present, everything else is skipped
(the `continue` branch). -/
def chunkContentOf : PyVal → Option Str
  | .str s => some s
  | .dict c => c
  | .other => none

/-- The segment `f"\nContent: {content}\n"` appended for one lexical result. -/
def lexSeg (content : Str) : Str :=
  '\n' :: ("Content: ".data ++ content ++ ['\n'])

/-- The segment `f"\nChunk: {chunk_content}\n"` appended for one semantic chunk. -/
def chunkSeg (content : Str) : Str :=
  '\n' :: ("Chunk: ".data ++ content ++ ['\n'])

/-- Step 1 of `combine_results` (hybrid_search.py lines 36-42): append each
FTS result's segment, breaking once the running word count exceeds
`max_token_limit` (the check runs after the append, so the segment that
crosses the limit is kept). -/
def addFts (limit : Nat) : List Str → Str → Str
  | [], acc => acc
  | content :: rest, acc =>
    let acc2 := acc ++ lexSeg content
    if limit < calculate_token_count acc2 then acc2 else addFts limit rest acc2

/-- Step 2 of `combine_results` (hybrid_search.py lines 44-59): append each
Pinecone chunk's segment (strings directly, dicts via `metadata.content`,
skipping elements without content), breaking once the running word count
exceeds `max_token_limit`; again the check runs after the append. -/
def addChunks (limit : Nat) : List PyVal → Str → Str
  | [], acc => acc
  | ch :: rest, acc =>
    match chunkContentOf ch with
    | none => addChunks limit rest acc
    | some c =>
      let acc2 := acc ++ chunkSeg c
      if limit < calculate_token_count acc2 then acc2 else addChunks limit rest acc2

/-- `combine_results` of hybrid_search.py: FTS segments first, then Pinecone
chunk segments, each phase gated by the word-count check, followed by the
final hard character truncation `combined_content[:max_token_limit]`. -/
def combine_results (fts_results : List Str) (pinecone_chunks : List PyVal)
    (max_token_limit : Nat) : Str :=
  (addChunks max_token_limit pinecone_chunks
    (addFts max_token_limit fts_results [])).take max_token_limit

/-- Each counted word consumes at least one character, so the word count of a
character list never exceeds its length. -/
theorem countTokensAux_le_length (l : Str) : ∀ b, countTokensAux b l ≤ l.length := by
  induction l with
  | nil => intro b; simp [countTokensAux]
  | cons c cs ih =>
    intro b
    by_cases h : isPySpace c = true
    · simp only [countTokensAux, h, if_true, List.length_cons]
      exact Nat.le_succ_of_le (ih false)
    · simp only [countTokensAux, h, if_false, List.length_cons]
      cases b with
      | true => simpa using Nat.le_succ_of_le (ih true)
      | false => simpa [Nat.add_comm] using Nat.succ_le_succ (ih true)

/-- The word count of any text is bounded by its character length. -/
theorem calculate_token_count_le_length (l : Str) :
    calculate_token_count l ≤ l.length :=
  countTokensAux_le_length l false

/-- C1: for every list of lexical results, every list of semantic chunks and
every `max_token_limit`, the string returned by `combine_results` has
whitespace-delimited word count at most `max_token_limit` and character
length at most `max_token_limit`. -/
theorem c1_budget_bounds (fts_results : List Str) (pinecone_chunks : List PyVal)
    (max_token_limit : Nat) :
    calculate_token_count (combine_results fts_results pinecone_chunks max_token_limit)
        ≤ max_token_limit ∧
    (combine_results fts_results pinecone_chunks max_token_limit).length
        ≤ max_token_limit := by
  constructor
  · exact le_trans (calculate_token_count_le_length _)
      (le_trans (Nat.le_of_eq (List.length_take _ _)) (Nat.min_le_left _ _))
  · exact le_trans (Nat.le_of_eq (List.length_take _ _)) (Nat.min_le_left _ _)

/-- Python space-join of a list of strings, `" ".join(parts)`. -/
def joinSp : List Str → Str
  | [] => []
  | [s] => s
  | s :: rest => s ++ ' ' :: joinSp rest

/-- `retrieve_context_from_pinecone` of embedding_search.py, parameterised by
the pineMatches the Pinecone query returns (`some content` when the match has
`metadata.content`, `none` otherwise): collect the contents of the pineMatches
and join them with a single space into ONE string. -/
def retrieve_context_from_pinecone (pineMatches : List (Option Str)) : Str :=
  joinSp (pineMatches.filterMap id)

/-- Python semantics of `for chunk in s` when `s` is a `str`: iteration
yields the characters of `s`, each itself a one-character `str`. -/
def strIter (s : Str) : List PyVal := s.map (fun c => .str [c])

/-- The list of segments the Pinecone loop of `combine_results` appends, one
per iterated element that carries content (mirrors lines 45-55 of
hybrid_search.py without the budget break). -/
def chunkSegsOf (chunks : List PyVal) : List Str :=
  chunks.filterMap (fun ch => (chunkContentOf ch).map chunkSeg)

/-- The context-assembly part of `answer_query` in hybrid_search.py: the
lexical rows are collected into `fts_results`, the semantic side is the
single string returned by `retrieve_context_from_pinecone`, and both are
passed to `combine_results` with its default `max_token_limit = 7000`.
Because the second argument is a `str`, the Pinecone loop iterates it
character by character (`strIter`). -/
def answer_query_context (fts_results : List Str) (pineMatches : List (Option Str)) : Str :=
  combine_results fts_results (strIter (retrieve_context_from_pinecone pineMatches)) 7000

/-- C4: as wired in `answer_query`, the semantic argument is the single
space-joined string of `retrieve_context_from_pinecone`, and the Pinecone
loop of `combine_results` iterates it element-wise, so for a non-empty
semantic result it appends one `"\nChunk: c\n"` segment per character `c`
of the joined string: the number of segments equals the number of
characters, not the number of retrieved chunks. -/
theorem c4_charwise_chunks (pineMatches : List (Option Str)) (fts_results : List Str)
    (_hne : retrieve_context_from_pinecone pineMatches ≠ []) :
    answer_query_context fts_results pineMatches
        = combine_results fts_results
            (strIter (retrieve_context_from_pinecone pineMatches)) 7000
    ∧ chunkSegsOf (strIter (retrieve_context_from_pinecone pineMatches))
        = (retrieve_context_from_pinecone pineMatches).map (fun c => chunkSeg [c])
    ∧ (chunkSegsOf (strIter (retrieve_context_from_pinecone pineMatches))).length
        = (retrieve_context_from_pinecone pineMatches).length := by
  refine ⟨rfl, ?_, ?_⟩
  · induction retrieve_context_from_pinecone pineMatches with
    | nil => rfl
    | cons c cs ih => simpa [chunkSegsOf, strIter, chunkContentOf] using ih
  · induction retrieve_context_from_pinecone pineMatches with
    | nil => rfl
    | cons c cs ih => simp [chunkSegsOf, strIter, chunkContentOf]

/-- Witness for C4 at a concrete input: a single retrieved chunk `"ab"`
produces one segment per character (two segments), not one per chunk. -/
theorem c4_charwise_chunks_witness :
    chunkSegsOf (strIter (retrieve_context_from_pinecone [some ['a', 'b']]))
        = (retrieve_context_from_pinecone [some ['a', 'b']]).map (fun c => chunkSeg [c]) :=
  (c4_charwise_chunks [some ['a', 'b']] [] (by decide)).2.1

/-- C10: when the lexical search returns no rows and every Pinecone match
lacks content, the joined semantic string is empty and `combine_results`
returns the empty string with word count 0 — a normal return value of the
(total) function, not an error. -/
theorem c10_empty_inputs (pineMatches : List (Option Str)) (limit : Nat)
    (h : ∀ m ∈ pineMatches, m = none) :
    retrieve_context_from_pinecone pineMatches = []
    ∧ combine_results [] (strIter (retrieve_context_from_pinecone pineMatches)) limit = []
    ∧ calculate_token_count
        (combine_results [] (strIter (retrieve_context_from_pinecone pineMatches)) limit) = 0 := by
  have h1 : pineMatches.filterMap id = [] := by
    rw [List.filterMap_eq_nil_iff]
    exact h
  have h2 : retrieve_context_from_pinecone pineMatches = [] := by
    unfold retrieve_context_from_pinecone
    rw [h1]
    rfl
  rw [h2]
  have h3 : combine_results [] (strIter []) limit = [] := by
    simp [combine_results, strIter, addChunks, addFts]
  exact ⟨rfl, h3, by rw [h3]; rfl⟩

/-- Witness for C10 at a concrete input: one match without content and the
default budget 7000. -/
theorem c10_empty_inputs_witness :
    retrieve_context_from_pinecone [none] = []
    ∧ combine_results [] (strIter (retrieve_context_from_pinecone [none])) 7000 = []
    ∧ calculate_token_count
        (combine_results [] (strIter (retrieve_context_from_pinecone [none])) 7000) = 0 :=
  c10_empty_inputs [none] 7000 (by decide)

/-- The FTS phase appends an order-preserving prefix of the lexical segments:
`addFts` always returns the accumulator followed by the segments of the
first `k` lexical results, for some `k` bounded by the input length. -/
theorem addFts_shape (limit : Nat) :
    ∀ (fts : List Str) (acc : Str), ∃ k, k ≤ fts.length ∧
      addFts limit fts acc = acc ++ ((fts.take k).map lexSeg).flatten := by
  intro fts
  induction fts with
  | nil => intro acc; exact ⟨0, Nat.le_refl 0, by simp [addFts]⟩
  | cons c rest ih =>
    intro acc
    by_cases h : limit < calculate_token_count (acc ++ lexSeg c)
    · refine ⟨1, by simp, ?_⟩
      simp [addFts, h]
    · obtain ⟨k, hk, he⟩ := ih (acc ++ lexSeg c)
      refine ⟨k + 1, by simpa using hk, ?_⟩
      simp only [addFts, h, if_false]
      rw [he]
      simp [List.append_assoc]

/-- The Pinecone phase appends the segments of a prefix of the chunk list:
`addChunks` always returns the accumulator followed by the segments of the
first `m` chunks, for some `m` bounded by the input length. -/
theorem addChunks_shape (limit : Nat) :
    ∀ (chunks : List PyVal) (acc : Str), ∃ m, m ≤ chunks.length ∧
      addChunks limit chunks acc = acc ++ (chunkSegsOf (chunks.take m)).flatten := by
  intro chunks
  induction chunks with
  | nil => intro acc; exact ⟨0, Nat.le_refl 0, by simp [addChunks, chunkSegsOf]⟩
  | cons ch rest ih =>
    intro acc
    cases hc : chunkContentOf ch with
    | none =>
      obtain ⟨m, hm, he⟩ := ih acc
      refine ⟨m + 1, by simpa using hm, ?_⟩
      simp only [addChunks, hc]
      rw [he]
      simp [chunkSegsOf, hc]
    | some c =>
      by_cases h : limit < calculate_token_count (acc ++ chunkSeg c)
      · refine ⟨1, by simp, ?_⟩
        simp [addChunks, hc, h, chunkSegsOf]
      · obtain ⟨m, hm, he⟩ := ih (acc ++ chunkSeg c)
        refine ⟨m + 1, by simpa using hm, ?_⟩
        simp only [addChunks, hc, h, if_false]
        rw [he]
        simp [chunkSegsOf, hc, List.append_assoc]

/-- C5 (amended): the fused text is the first `max_token_limit` characters of
a block of lexical segments followed by a block of semantic segments — the
lexical segments that do appear come first and in order, but each phase may
stop early once the running word count exceeds the budget, so only a prefix
of the lexical results (and of the chunks) is appended. -/
theorem c5_amended_lexical_first (fts_results : List Str) (pinecone_chunks : List PyVal)
    (max_token_limit : Nat) :
    ∃ k m, k ≤ fts_results.length ∧ m ≤ pinecone_chunks.length ∧
      combine_results fts_results pinecone_chunks max_token_limit
        = (((fts_results.take k).map lexSeg).flatten
            ++ (chunkSegsOf (pinecone_chunks.take m)).flatten).take max_token_limit := by
  obtain ⟨k, hk, h1⟩ := addFts_shape max_token_limit fts_results []
  obtain ⟨m, hm, h2⟩ := addChunks_shape max_token_limit pinecone_chunks
    (addFts max_token_limit fts_results [])
  refine ⟨k, m, hk, hm, ?_⟩
  unfold combine_results
  rw [h2, h1]
  simp

/-- C5 fails as stated: with lexical results `["a b c d e", "f"]`, one
semantic chunk `"g"` and budget 4, both inputs are non-empty and jointly
exceed the budget, yet the fused text is `"\nCon"`: the second lexical item
is never appended (the word-count break fires after the first), so the
fused text does not consist of all lexical segments followed by semantic
content. -/
theorem c5_counterexample :
    combine_results ["a b c d e".data, "f".data] [PyVal.str "g".data] 4 = "\nCon".data
    ∧ ["a b c d e".data, "f".data] ≠ ([] : List Str)
    ∧ [PyVal.str "g".data] ≠ ([] : List PyVal)
    ∧ 4 < calculate_token_count ((["a b c d e".data, "f".data].map lexSeg).flatten
        ++ (chunkSegsOf [PyVal.str "g".data]).flatten)
    ∧ ¬ ∃ rest, combine_results ["a b c d e".data, "f".data] [PyVal.str "g".data] 4
        = (["a b c d e".data, "f".data].map lexSeg).flatten ++ rest := by
  refine ⟨by decide, by decide, by decide, by decide, ?_⟩
  rintro ⟨rest, hrest⟩
  have h1 : (combine_results ["a b c d e".data, "f".data] [PyVal.str "g".data] 4).length = 4 := by
    decide
  have h2 : ((["a b c d e".data, "f".data].map lexSeg).flatten).length = 32 := by decide
  rw [hrest, List.length_append, h2] at h1
  omega

/-- A row of the `articles` table and of its FTS mirror:
`(title, synopsis, content, link)`. -/
abbrev FtsRow := Str × Str × Str × Str

/-- The SQLite database as seen by full_text_search.py: the `articles` table
and the `articles_fts` virtual table (`none` while the latter does not
exist yet). -/
structure LexDB where
  articles : List FtsRow
  articles_fts : Option (List FtsRow)
deriving DecidableEq

/-- `create_fts_table_with_link` of full_text_search.py (successful
execution path): `CREATE VIRTUAL TABLE IF NOT EXISTS articles_fts`
creates the table empty only when it is absent, then
`INSERT INTO articles_fts ... SELECT ... FROM articles` unconditionally
appends every row of `articles` to the FTS table. -/
def create_fts_table_with_link (db : LexDB) : LexDB :=
  let existing := match db.articles_fts with
    | none => []
    | some rows => rows
  { db with articles_fts := some (existing ++ db.articles) }

/-- C3 fails as stated: on a database with one article and no FTS table yet,
the second call to `create_fts_table_with_link` leaves the FTS table with
two copies of the row — the existence check only guards table creation,
not the `INSERT`, so rows are duplicated by the second call. -/
theorem c3_counterexample :
    (create_fts_table_with_link (create_fts_table_with_link
        ⟨[(['t'], ['s'], ['c'], ['l'])], none⟩)).articles_fts
      ≠ (create_fts_table_with_link
        ⟨[(['t'], ['s'], ['c'], ['l'])], none⟩).articles_fts := by
  decide

/-- C3 (amended): each call appends every `articles` row to the FTS table
(creating the table first when absent), so after two calls the table holds
the rows of one call followed by a second copy of the `articles` rows; the
operation is contents-idempotent only when `articles` is empty. -/
theorem c3_amended_second_call_appends (db : LexDB) :
    (create_fts_table_with_link db).articles_fts
        = some ((match db.articles_fts with | none => [] | some rows => rows) ++ db.articles)
    ∧ (create_fts_table_with_link (create_fts_table_with_link db)).articles_fts
        = some (((match db.articles_fts with
            | none => [] | some rows => rows) ++ db.articles) ++ db.articles) := by
  constructor
  · rfl
  · rfl

/-- `clean_vector_id`'s character class `[a-zA-Z0-9_-]`
(data_ingestion.py line 19). -/
def isVectorIdChar (c : Char) : Bool :=
  ('a' ≤ c && c ≤ 'z') || ('A' ≤ c && c ≤ 'Z') || ('0' ≤ c && c ≤ '9') || c = '_' || c = '-'

/-- `clean_vector_id` of data_ingestion.py:
`re.sub(r'[^a-zA-Z0-9_-]', '_', text)` — every character outside the class
is replaced by an underscore, character by character. -/
def clean_vector_id (text : Str) : Str :=
  text.map (fun c => if isVectorIdChar c then c else '_')

/-- C6 fails on its worked example: `"AI & Robotics: 2024!"` sanitises to
`"AI___Robotics__2024_"` (the three characters of `" & "` each become an
underscore), not to the claimed `"AI__Robotics__2024_"`. -/
theorem c6_counterexample :
    clean_vector_id "AI & Robotics: 2024!".data = "AI___Robotics__2024_".data
    ∧ clean_vector_id "AI & Robotics: 2024!".data ≠ "AI__Robotics__2024_".data := by
  exact ⟨by decide, by decide⟩

/-- C6 (amended): the sanitiser's output contains only characters of
`[a-zA-Z0-9_-]`, length is preserved, characters already in the class are
kept, and the worked example yields `"AI___Robotics__2024_"`. -/
theorem c6_amended_sanitizer :
    (∀ t : Str, ∀ c ∈ clean_vector_id t, isVectorIdChar c = true)
    ∧ (∀ t : Str, (clean_vector_id t).length = t.length)
    ∧ (∀ t : Str, ∀ c ∈ t, isVectorIdChar c = true → c ∈ clean_vector_id t)
    ∧ clean_vector_id "AI & Robotics: 2024!".data = "AI___Robotics__2024_".data := by
  refine ⟨?_, ?_, ?_, by decide⟩
  · intro t c hc
    obtain ⟨a, _, ha⟩ := List.mem_map.mp hc
    by_cases h : isVectorIdChar a = true
    · rw [← ha, if_pos h]; exact h
    · rw [← ha, if_neg h]; decide
  · intro t
    exact List.length_map t _
  · intro t c hc h
    have : (if isVectorIdChar c then c else '_') = c := if_pos h
    exact this ▸ List.mem_map_of_mem _ hc

/-- Witness for C6 (amended) at a concrete input: the sanitised form of
`"&"` consists of class characters only. -/
theorem c6_amended_sanitizer_witness : isVectorIdChar '_' = true :=
  c6_amended_sanitizer.1 ['&'] '_' (by decide)

/-- The outcome of calling a Python function: a returned value or a raised
exception (identified by its type name). -/
inductive PyResult (α : Type) where
  | ok (val : α)
  | raised (exn : Str)
deriving DecidableEq

/-- What the SQLite engine does for one call of `search_articles_with_link`:
either `sqlite3.connect` itself raises `sqlite3.Error`, or it yields a
connection on which the query either raises `sqlite3.Error` or returns
rows. -/
inductive SqliteConn where
  | connectFail
  | connected (queryResult : Except Str (List FtsRow))

/-- `search_articles_with_link` of full_text_search.py with Python
`try/except/finally` semantics.  When the query on an open connection
raises `sqlite3.Error`, the `except` clause returns `[]` and
`finally: conn.close()` succeeds.  But when `sqlite3.connect` itself
raises, the local `conn` is never bound; the `except` clause still tries
to return `[]`, yet the `finally` clause evaluates `conn.close()` on the
unbound local and raises `UnboundLocalError`, which supersedes the return
and propagates to the caller. -/
def search_articles_with_link (conn : SqliteConn) : PyResult (List FtsRow) :=
  match conn with
  | .connectFail => .raised "UnboundLocalError".data
  | .connected (.error _) => .ok []
  | .connected (.ok rows) => .ok rows

/-- C7 is right about the intent but the code has a bug: an error raised on
an open connection degrades to `[]`, yet a failure of `sqlite3.connect`
makes the call raise `UnboundLocalError` from the `finally` block instead
of returning an empty result set. -/
theorem c7_connect_failure_raises :
    search_articles_with_link (.connected (.error "unable to open database file".data))
        = .ok []
    ∧ search_articles_with_link .connectFail = .raised "UnboundLocalError".data
    ∧ ∀ rows, search_articles_with_link .connectFail ≠ .ok rows := by
  refine ⟨rfl, rfl, ?_⟩
  intro rows h
  simp [search_articles_with_link] at h

/-- A langchain `Document` as built by `split_articles_into_documents`:
one chunk of text plus the parent article's metadata. -/
structure Document where
  title : Str
  description : Str
  link : Str
  page_content : Str
deriving DecidableEq

/-- A source article as fetched from the database
(`SELECT title, synopsis, link, content FROM articles`); the `synopsis`
column is bound to the loop variable `description` in
`split_articles_into_documents`. -/
structure SrcArticle where
  title : Str
  description : Str
  link : Str
  content : Str
deriving DecidableEq

/-- `split_articles_into_documents` of data_ingestion.py, parameterised by
the external `RecursiveCharacterTextSplitter.split_text` (`none` models a
per-article split error, which is reported and skips that article): each
article contributes one `Document` per chunk, carrying the parent
metadata, and the documents of all articles are concatenated in order
into a single list. -/
def split_articles_into_documents (split_text : Str → Option (List Str))
    (articles : List SrcArticle) : List Document :=
  articles.flatMap (fun a =>
    match split_text a.content with
    | none => []
    | some chunks => chunks.map (fun chunk => ⟨a.title, a.description, a.link, chunk⟩))

/-- `get_embeddings` of data_ingestion.py, parameterised by the external
`model.encode` (`none` models the call raising): a failing embedding call
is caught and yields the empty list. -/
def get_embeddings (encode : Str → Option (List Int)) (text : Str) : List Int :=
  match encode text with
  | some v => v
  | none => []

/-- What one iteration of the loop of `index_documents_to_pinecone` did to
its document. -/
inductive IndexEvent where
  | upserted (vector_id : Str) (vector : List Int)
      (title description link content : Str)
  | upsertFailed (vector_id : Str) (title : Str)
  | skipped (title : Str)
deriving DecidableEq

/-- The body of the `for i, doc in enumerate(documents)` loop of
`index_documents_to_pinecone` at loop index `i`: sanitize the title, embed
the chunk text, and if the vector is non-empty upsert under
`f"{title}_{i}"` (an upsert error is caught and reported); an empty
vector skips the document.  `upsertOk` is the external Pinecone upsert
oracle. -/
def eventAt (encode : Str → Option (List Int)) (upsertOk : Str → Bool)
    (i : Nat) (doc : Document) : IndexEvent :=
  let title := clean_vector_id doc.title
  let vector := get_embeddings encode doc.page_content
  if vector ≠ [] then
    let vector_id := title ++ '_' :: Nat.toDigits 10 i
    if upsertOk vector_id then
      .upserted vector_id vector doc.title doc.description doc.link doc.page_content
    else .upsertFailed vector_id doc.title
  else .skipped doc.title

/-- The enumerated loop of `index_documents_to_pinecone`, starting at loop
index `i`. -/
def indexDocsFrom (encode : Str → Option (List Int)) (upsertOk : Str → Bool) :
    Nat → List Document → List IndexEvent
  | _, [] => []
  | i, doc :: rest => eventAt encode upsertOk i doc :: indexDocsFrom encode upsertOk (i + 1) rest

/-- `index_documents_to_pinecone` of data_ingestion.py: iterate over ALL
documents with `enumerate` (so `i` is the global position in the flat
document list), producing one `IndexEvent` per document. -/
def index_documents_to_pinecone (encode : Str → Option (List Int))
    (upsertOk : Str → Bool) (documents : List Document) : List IndexEvent :=
  indexDocsFrom encode upsertOk 0 documents

/-- The loop produces exactly one event per document. -/
theorem indexDocsFrom_length (encode : Str → Option (List Int)) (upsertOk : Str → Bool) :
    ∀ (docs : List Document) (n : Nat),
      (indexDocsFrom encode upsertOk n docs).length = docs.length := by
  intro docs
  induction docs with
  | nil => intro n; rfl
  | cons d rest ih => intro n; simp [indexDocsFrom, ih (n + 1)]

/-- The event at position `i` of the loop started at `n` is the loop body
applied to the document at position `i` with loop index `n + i`. -/
theorem indexDocsFrom_getElem? (encode : Str → Option (List Int)) (upsertOk : Str → Bool) :
    ∀ (docs : List Document) (n i : Nat),
      (indexDocsFrom encode upsertOk n docs)[i]?
        = (docs[i]?).map (eventAt encode upsertOk (n + i)) := by
  intro docs
  induction docs with
  | nil => intro n i; simp [indexDocsFrom]
  | cons d rest ih =>
    intro n i
    cases i with
    | zero => simp [indexDocsFrom]
    | succ j =>
      simp only [indexDocsFrom, List.getElem?_cons_succ]
      rw [ih (n + 1) j, show n + 1 + j = n + (j + 1) from by omega]

/-- C2 fails as stated: ingesting a batch of two articles `"A"` and `"B"`
with one chunk each produces the ids `"A_0"` and `"B_1"` — the ordinal in
the id is the global `enumerate` position over the flattened document
list, so the single chunk of article `"B"` (its chunk 0) does NOT get the
id `sanitize("B") + "_0"`. -/
theorem c2_counterexample :
    index_documents_to_pinecone (fun _ => some [1]) (fun _ => true)
        (split_articles_into_documents (fun c => some [c])
          [⟨"A".data, "s".data, "l".data, "x".data⟩,
           ⟨"B".data, "s".data, "l".data, "y".data⟩])
      = [.upserted "A_0".data [1] "A".data "s".data "l".data "x".data,
         .upserted "B_1".data [1] "B".data "s".data "l".data "y".data]
    ∧ "B_1".data ≠ clean_vector_id "B".data ++ '_' :: Nat.toDigits 10 0 := by
  exact ⟨by decide, by decide⟩

/-- C2 (amended): every upserted document at position `i` of the flattened
document list gets the deterministic id
`clean_vector_id(title) ++ "_" ++ decimal(i)` — the ordinal is the GLOBAL
position in the batch's document list, not the position within the parent
article (the two coincide only for the documents of the first article,
e.g. a batch that is a single article split into three chunks gets ids
`_0`, `_1`, `_2`); the metadata stored with the vector is the document's
own title, description, link and chunk content. -/
theorem c2_amended_global_ordinal_ids (encode : Str → Option (List Int))
    (upsertOk : Str → Bool) (docs : List Document) (i : Nat) (doc : Document)
    (hdoc : docs[i]? = some doc) :
    ∀ (id : Str) (v : List Int) (t d l c : Str),
      (index_documents_to_pinecone encode upsertOk docs)[i]?
          = some (.upserted id v t d l c) →
        id = clean_vector_id doc.title ++ '_' :: Nat.toDigits 10 i
        ∧ t = doc.title ∧ d = doc.description ∧ l = doc.link ∧ c = doc.page_content := by
  intro id v t d l c h
  unfold index_documents_to_pinecone at h
  rw [indexDocsFrom_getElem? encode upsertOk docs 0 i, hdoc, Nat.zero_add] at h
  have h2 : eventAt encode upsertOk i doc = .upserted id v t d l c := by
    simpa using h
  simp only [eventAt] at h2
  split at h2
  · split at h2
    · injection h2 with e1 e2 e3 e4 e5 e6
      exact ⟨e1.symm, e3.symm, e4.symm, e5.symm, e6.symm⟩
    · exact IndexEvent.noConfusion h2
  · exact IndexEvent.noConfusion h2

/-- Witness for C2 (amended): a batch that is one article `"A!"` split into
three chunks gets the ids `A__0`, `A__1`, `A__2` (the `!` sanitised to an
underscore); shown here for the chunk at position 2. -/
theorem c2_amended_global_ordinal_ids_witness :
    "A__2".data = clean_vector_id "A!".data ++ '_' :: Nat.toDigits 10 2
    ∧ "A!".data = "A!".data ∧ "s".data = "s".data ∧ "l".data = "l".data
    ∧ "z".data = "z".data :=
  c2_amended_global_ordinal_ids (fun _ => some [1]) (fun _ => true)
    (split_articles_into_documents (fun _ => some ["x".data, "y".data, "z".data])
      [⟨"A!".data, "s".data, "l".data, "xyz".data⟩])
    2 ⟨"A!".data, "s".data, "l".data, "z".data⟩ (by decide)
    "A__2".data [1] "A!".data "s".data "l".data "z".data (by decide)

/-- C9: ingestion never aborts on a per-document embedding or upsert
failure — the loop yields exactly one event for every document of the
batch; a raising embedding call yields the empty vector; and a document
whose embedding is empty (in particular one whose embedding call failed)
is skipped: its event is `skipped`, so no upsert is performed for it,
while every other document still gets its own event. -/
theorem c9_embedding_failure_skips (encode : Str → Option (List Int))
    (upsertOk : Str → Bool) (docs : List Document) :
    (index_documents_to_pinecone encode upsertOk docs).length = docs.length
    ∧ (∀ text, encode text = none → get_embeddings encode text = [])
    ∧ ∀ (i : Nat) (doc : Document), docs[i]? = some doc →
        get_embeddings encode doc.page_content = [] →
        (index_documents_to_pinecone encode upsertOk docs)[i]?
          = some (.skipped doc.title) := by
  refine ⟨indexDocsFrom_length encode upsertOk docs 0, ?_, ?_⟩
  · intro text h
    unfold get_embeddings
    rw [h]
  · intro i doc hdoc hemb
    unfold index_documents_to_pinecone
    rw [indexDocsFrom_getElem? encode upsertOk docs 0 i, hdoc, Nat.zero_add]
    simp [eventAt, hemb]

/-- Witness for C9: a two-document batch whose first document's embedding
call fails is processed end to end — two events, the first `skipped`. -/
theorem c9_embedding_failure_skips_witness :
    (index_documents_to_pinecone
        (fun t => if t = "x".data then none else some [1]) (fun _ => true)
        [⟨"A".data, "s".data, "l".data, "x".data⟩,
         ⟨"B".data, "s".data, "l".data, "y".data⟩])[0]?
      = some (.skipped "A".data) :=
  (c9_embedding_failure_skips (fun t => if t = "x".data then none else some [1])
      (fun _ => true)
      [⟨"A".data, "s".data, "l".data, "x".data⟩,
       ⟨"B".data, "s".data, "l".data, "y".data⟩]).2.2
    0 ⟨"A".data, "s".data, "l".data, "x".data⟩ (by decide) (by decide)

/-- A row of the `articles` table together with its SQLite `rowid`. -/
structure ARow where
  rowid : Nat
  title : Str
  synopsis : Str
  content : Str
  link : Str
deriving DecidableEq

/-- The composite key of the `GROUP BY title, synopsis, content, link`. -/
abbrev AKey := Str × Str × Str × Str

/-- The grouping key of one row. -/
def akey (r : ARow) : AKey := (r.title, r.synopsis, r.content, r.link)

/-- SQL `MIN` over a list of rowids (`none` on the empty list). -/
def listMin : List Nat → Option Nat
  | [] => none
  | x :: xs =>
    match listMin xs with
    | none => some x
    | some m => some (if x ≤ m then x else m)

theorem listMin_isSome (l : List Nat) (h : l ≠ []) : ∃ m, listMin l = some m := by
  cases l with
  | nil => exact absurd rfl h
  | cons x xs =>
    cases hm : listMin xs with
    | none => exact ⟨x, by simp [listMin, hm]⟩
    | some m => exact ⟨if x ≤ m then x else m, by simp [listMin, hm]⟩

theorem listMin_eq_none (l : List Nat) (h : listMin l = none) : l = [] := by
  cases l with
  | nil => rfl
  | cons x xs =>
    exfalso
    cases hm : listMin xs with
    | none => simp [listMin, hm] at h
    | some m => simp [listMin, hm] at h

theorem listMin_mem : ∀ (l : List Nat) (m : Nat), listMin l = some m → m ∈ l := by
  intro l
  induction l with
  | nil => intro m h; exact absurd h (by simp [listMin])
  | cons x xs ih =>
    intro m h
    cases hm : listMin xs with
    | none =>
      rw [listMin, hm] at h
      rw [← Option.some.inj h]
      exact List.mem_cons_self x xs
    | some m2 =>
      rw [listMin, hm] at h
      have hmin : (if x ≤ m2 then x else m2) = m := Option.some.inj h
      by_cases hle : x ≤ m2
      · rw [if_pos hle] at hmin
        rw [← hmin]
        exact List.mem_cons_self x xs
      · rw [if_neg hle] at hmin
        rw [← hmin]
        exact List.mem_cons_of_mem x (ih m2 hm)

theorem listMin_le : ∀ (l : List Nat) (m : Nat), listMin l = some m → ∀ x ∈ l, m ≤ x := by
  intro l
  induction l with
  | nil => intro m h; exact absurd h (by simp [listMin])
  | cons x xs ih =>
    intro m h y hy
    cases hm : listMin xs with
    | none =>
      have hxs : xs = [] := listMin_eq_none xs hm
      rw [listMin, hm] at h
      have hmx : x = m := Option.some.inj h
      subst hxs
      rcases List.mem_singleton.mp hy with rfl
      exact Nat.le_of_eq hmx.symm
    | some m2 =>
      rw [listMin, hm] at h
      have hmin : (if x ≤ m2 then x else m2) = m := Option.some.inj h
      have hm2 : m ≤ m2 := by
        by_cases hle : x ≤ m2
        · rw [if_pos hle] at hmin; omega
        · rw [if_neg hle] at hmin; omega
      have hmx : m ≤ x := by
        by_cases hle : x ≤ m2
        · rw [if_pos hle] at hmin; omega
        · rw [if_neg hle] at hmin; omega
      rcases List.mem_cons.mp hy with rfl | hy2
      · exact hmx
      · exact Nat.le_trans hm2 (ih m2 hm y hy2)

theorem listMin_eq_of_mem_le (l : List Nat) (x : Nat) (hx : x ∈ l)
    (hle : ∀ y ∈ l, x ≤ y) : listMin l = some x := by
  obtain ⟨m, hm⟩ := listMin_isSome l (List.ne_nil_of_mem hx)
  have h1 : m ≤ x := listMin_le l m hm x hx
  have h2 : x ≤ m := hle m (listMin_mem l m hm)
  rw [hm, Nat.le_antisymm h1 h2]

/-- The rowids of the rows of `t` whose grouping key is `k`
(the rowids of one `GROUP BY` group). -/
def groupRowids (t : List ARow) (k : AKey) : List Nat :=
  (t.filter (fun x => decide (akey x = k))).map (fun x => x.rowid)

/-- `SELECT MIN(rowid) FROM articles GROUP BY title, synopsis, content, link`
as a membership set: the minimum rowid of each row's group. -/
def minRowids (t : List ARow) : List Nat :=
  t.filterMap (fun r => listMin (groupRowids t (akey r)))

/-- `remove_duplicates_from_articles` of full_text_search.py (successful
execution path): `DELETE FROM articles WHERE rowid NOT IN (SELECT
MIN(rowid) FROM articles GROUP BY title, synopsis, content, link)` — keep
exactly the rows whose rowid is among the per-group minimum rowids. -/
def remove_duplicates_from_articles (t : List ARow) : List ARow :=
  t.filter (fun r => decide (r.rowid ∈ minRowids t))

theorem mem_groupRowids (t : List ARow) (k : AKey) (n : Nat) :
    n ∈ groupRowids t k ↔ ∃ y, y ∈ t ∧ akey y = k ∧ y.rowid = n := by
  unfold groupRowids
  simp [List.mem_filter, and_assoc]

/-- In a table with pairwise distinct rowids, a row is kept by
`remove_duplicates_from_articles` exactly when its rowid is minimal in its
own key group. -/
theorem mem_dedup_iff (t : List ARow) (h : (t.map (fun r => r.rowid)).Nodup)
    (r : ARow) (hr : r ∈ t) :
    r ∈ remove_duplicates_from_articles t
      ↔ ∀ y ∈ t, akey y = akey r → r.rowid ≤ y.rowid := by
  unfold remove_duplicates_from_articles
  rw [List.mem_filter]
  simp only [decide_eq_true_eq]
  constructor
  · rintro ⟨-, hmem⟩
    rw [minRowids, List.mem_filterMap] at hmem
    obtain ⟨x, hx, hlm⟩ := hmem
    have hmemg := listMin_mem _ _ hlm
    rw [mem_groupRowids] at hmemg
    obtain ⟨y, hy, hky, hryd⟩ := hmemg
    have hyr : y = r := List.inj_on_of_nodup_map h hy hr hryd
    subst hyr
    intro z hz hkz
    have hz2 : z.rowid ∈ groupRowids t (akey x) :=
      (mem_groupRowids t (akey x) z.rowid).mpr ⟨z, hz, by rw [hkz, hky], rfl⟩
    exact listMin_le _ _ hlm z.rowid hz2
  · intro hmin
    refine ⟨hr, ?_⟩
    rw [minRowids, List.mem_filterMap]
    refine ⟨r, hr, ?_⟩
    apply listMin_eq_of_mem_le
    · exact (mem_groupRowids t (akey r) r.rowid).mpr ⟨r, hr, rfl, rfl⟩
    · intro n hn
      rw [mem_groupRowids] at hn
      obtain ⟨y, hy, hky, hn2⟩ := hn
      rw [← hn2]
      exact hmin y hy hky

theorem dedup_sublist (t : List ARow) :
    List.Sublist (remove_duplicates_from_articles t) t :=
  List.filter_sublist t

/-- Deduplication is idempotent on tables with pairwise distinct rowids. -/
theorem dedup_idem (t : List ARow) (h : (t.map (fun r => r.rowid)).Nodup) :
    remove_duplicates_from_articles (remove_duplicates_from_articles t)
      = remove_duplicates_from_articles t := by
  apply List.filter_eq_self.mpr
  intro r hr
  rw [decide_eq_true_eq]
  have hsub := dedup_sublist t
  have h2 : ((remove_duplicates_from_articles t).map (fun r => r.rowid)).Nodup :=
    h.sublist (hsub.map (fun r => r.rowid))
  have hrt : r ∈ t := hsub.subset hr
  have hmin := (mem_dedup_iff t h r hrt).mp hr
  have hkeep := (mem_dedup_iff (remove_duplicates_from_articles t) h2 r hr).mpr
    (fun y hy hk => hmin y (hsub.subset hy) hk)
  rw [remove_duplicates_from_articles, List.mem_filter, decide_eq_true_eq] at hkeep
  exact hkeep.2

/-- Every key present in the table keeps a representative after dedup. -/
theorem dedup_keeps_key (t : List ARow) (h : (t.map (fun r => r.rowid)).Nodup)
    (r : ARow) (hr : r ∈ t) :
    ∃ q ∈ remove_duplicates_from_articles t, akey q = akey r := by
  have hne : groupRowids t (akey r) ≠ [] := by
    intro hnil
    have : r.rowid ∈ groupRowids t (akey r) :=
      (mem_groupRowids t (akey r) r.rowid).mpr ⟨r, hr, rfl, rfl⟩
    rw [hnil] at this
    exact absurd this (List.not_mem_nil _)
  obtain ⟨m, hm⟩ := listMin_isSome _ hne
  have hmemg := listMin_mem _ _ hm
  rw [mem_groupRowids] at hmemg
  obtain ⟨y, hy, hky, hyr⟩ := hmemg
  refine ⟨y, ?_, hky⟩
  rw [mem_dedup_iff t h y hy]
  intro z hz hkz
  have hz2 : z.rowid ∈ groupRowids t (akey r) :=
    (mem_groupRowids t (akey r) z.rowid).mpr ⟨z, hz, by rw [hkz, hky], rfl⟩
  rw [hyr]
  exact listMin_le _ _ hm z.rowid hz2

/-- C8: on a table with pairwise distinct rowids (SQLite guarantees rowid
uniqueness), `remove_duplicates_from_articles` keeps a row exactly when
its rowid is the lowest of its `(title, synopsis, content, link)` group —
so it deletes exactly the non-minimal duplicates —, every key keeps a
representative, and a second call changes nothing (in particular the row
count is unchanged). -/
theorem c8_dedup_exact_and_idempotent (t : List ARow)
    (h : (t.map (fun r => r.rowid)).Nodup) :
    (∀ r ∈ t, (r ∈ remove_duplicates_from_articles t
        ↔ ∀ y ∈ t, akey y = akey r → r.rowid ≤ y.rowid))
    ∧ (∀ r ∈ t, ∃ q ∈ remove_duplicates_from_articles t, akey q = akey r)
    ∧ remove_duplicates_from_articles (remove_duplicates_from_articles t)
        = remove_duplicates_from_articles t
    ∧ (remove_duplicates_from_articles (remove_duplicates_from_articles t)).length
        = (remove_duplicates_from_articles t).length :=
  ⟨fun r hr => mem_dedup_iff t h r hr,
   fun r hr => dedup_keeps_key t h r hr,
   dedup_idem t h,
   by rw [dedup_idem t h]⟩

/-- Witness for C8 at a concrete table: two exact duplicates and one other
row; after dedup the duplicate with the higher rowid is gone, and the
second call is a no-op. -/
theorem c8_dedup_exact_and_idempotent_witness :
    remove_duplicates_from_articles (remove_duplicates_from_articles
        [⟨1, ['t'], ['s'], ['c'], ['l']⟩, ⟨2, ['t'], ['s'], ['c'], ['l']⟩,
         ⟨3, ['u'], ['s'], ['c'], ['l']⟩])
      = remove_duplicates_from_articles
        [⟨1, ['t'], ['s'], ['c'], ['l']⟩, ⟨2, ['t'], ['s'], ['c'], ['l']⟩,
         ⟨3, ['u'], ['s'], ['c'], ['l']⟩] :=
  (c8_dedup_exact_and_idempotent
    [⟨1, ['t'], ['s'], ['c'], ['l']⟩, ⟨2, ['t'], ['s'], ['c'], ['l']⟩,
     ⟨3, ['u'], ['s'], ['c'], ['l']⟩] (by decide)).2.2.1

end MSC
